import Mathlib

/-!
Verification of the D-Link firmware scraper (`src/scraper.py`) against its
natural-language specification.  The Python program is shallowly embedded:
Python library string primitives (`str.strip`, `str.replace`, `str.lower`,
`os.path.splitext`, `os.path.join`, `urllib.parse.unquote`,
`urllib.parse.urljoin`) are modelled as executable Lean functions on
`String`/`List Char`; HTTP fetching is modelled as a function from URLs to
an optional list of anchor links (`none` = fetch failure, mirroring
`get_soup` returning `None`); the local filesystem is a partial map from
paths to byte lists; downloads and archive extraction are explicit state
transformers.
-/

namespace Scraper

/-- Python `s.strip(c)` for a single-character strip set: removes all leading
and trailing occurrences of `c`. -/
def pyStripChar (c : Char) (s : String) : String :=
  ⟨((s.data.dropWhile (· = c)).reverse.dropWhile (· = c)).reverse⟩

/-- Python `s.lower()`; on ASCII data this agrees with mapping
`Char.toLower` over the characters, which is how we model it (the scraper
only ever compares ASCII hrefs). -/
def pyLower (s : String) : String :=
  ⟨s.data.map Char.toLower⟩

/-- Fueled worker for `removeOccs`.  With fuel at least the length of the
subject list the fuel never runs out (each step consumes at least one
character), so the `0` case is a dead branch kept only to make the
recursion structural (hence kernel-reducible). -/
def roGo (pat : List Char) : Nat → List Char → List Char
  | 0, s => s
  | _ + 1, [] => []
  | f + 1, a :: rest =>
    if pat ≠ [] ∧ pat.isPrefixOf (a :: rest) then
      roGo pat f ((a :: rest).drop pat.length)
    else
      a :: roGo pat f rest

/-- Removes every (non-overlapping, leftmost-first) occurrence of `pat`:
this is Python `s.replace(pat, '')`, the operation used on line 167 of
`scraper.py` (`full_url.replace(self.base_url, '')`). -/
def removeOccs (pat s : List Char) : List Char :=
  roGo pat s.length s

/-- Python `s.replace(pat, '')` on `String`s. -/
def pyReplaceEmpty (s pat : String) : String :=
  ⟨removeOccs pat.data s.data⟩

/-- Boolean check that `pat` occurs nowhere in `s` (at no offset); used as
a decidable well-formedness hypothesis about base URLs and relative
paths. -/
def noOccB (pat s : List Char) : Bool :=
  (List.range (s.length + 1)).all (fun i => !(pat.isPrefixOf (s.drop i)))

/-- Index of the last occurrence of `c` in the list (Python `s.rfind(c)`
when it succeeds). -/
def rlastIdx (c : Char) : List Char → Option Nat
  | [] => none
  | a :: rest =>
    match rlastIdx c rest with
    | some i => some (i + 1)
    | none => if a = c then some 0 else none

/-- The extension part of `os.path.splitext` (posixpath): the suffix from
the last `'.'`, provided that dot lies after the last `'/'` and some
non-dot character precedes it within the final path component (so leading
dots of a hidden file are not an extension separator). -/
def pySplitextExt (p : List Char) : List Char :=
  match rlastIdx '.' p with
  | none => []
  | some di =>
    let si : Nat :=
      match rlastIdx '/' p with
      | none => 0
      | some j => j + 1
    if si ≤ di ∧ ((p.drop si).take (di - si)).any (fun c => c ≠ '.') then
      p.drop di
    else
      []

/-- Python `os.path.join(a, b)` (posix flavour, two arguments): an absolute
`b` discards `a`; otherwise the parts are glued with exactly one `/`. -/
def posixJoin (a b : String) : String :=
  if b.data.head? = some '/' then b
  else if a = "" then b
  else if a.data.getLast? = some '/' then a ++ b
  else a ++ "/" ++ b

/-- Does the string end with the character `c` (Python `s.endswith(c)` for
a single-character suffix)? -/
def endsWithChar (c : Char) (s : String) : Bool :=
  s.data.getLast? = some c

/-- Is `suf` a suffix of `s` (Python `s.endswith(suf)`)? -/
def strEndsWith (suf s : String) : Bool :=
  suf.data.isSuffixOf s.data

/-- Value of a hexadecimal digit, if the character is one. -/
def hexVal (c : Char) : Option Nat :=
  if '0' ≤ c ∧ c ≤ '9' then some (c.toNat - 48)
  else if 'A' ≤ c ∧ c ≤ 'F' then some (c.toNat - 55)
  else if 'a' ≤ c ∧ c ≤ 'f' then some (c.toNat - 87)
  else none

/-- Percent-decoding worker: `%XY` with two hex digits becomes the byte
`16*X + Y`; a `%` not followed by two hex digits is kept literally. -/
def unqGo : List Char → List Char
  | [] => []
  | '%' :: h1 :: h2 :: rest2 =>
    match hexVal h1, hexVal h2 with
    | some a, some b => Char.ofNat (16 * a + b) :: unqGo rest2
    | _, _ => '%' :: unqGo (h1 :: h2 :: rest2)
  | c :: rest => c :: unqGo rest

/-- Python `urllib.parse.unquote` restricted to single-byte (ASCII)
percent escapes, the only kind the scraper's vendor listings produce. -/
def pyUnquote (s : String) : String :=
  ⟨unqGo s.data⟩

/-- Characters allowed after the first letter of a URL scheme. -/
def isSchemeChar (c : Char) : Bool :=
  c.isAlpha || c.isDigit || c == '+' || c == '-' || c == '.'

/-- Worker for `schemeSplit`: accumulates scheme characters until the
colon. -/
def schemeSplitGo (acc : List Char) : List Char → Option (List Char × List Char)
  | [] => none
  | c :: rest =>
    if c = ':' then some (acc.reverse, rest)
    else if isSchemeChar c then schemeSplitGo (c :: acc) rest
    else none

/-- Splits `scheme:rest` when the string starts with a well-formed URL
scheme followed by a colon. -/
def schemeSplit : List Char → Option (List Char × List Char)
  | [] => none
  | c :: rest => if c.isAlpha then schemeSplitGo [c] rest else none

/-- Does the string carry a URL scheme? -/
def hasScheme (s : String) : Bool :=
  (schemeSplit s.data).isSome

/-- Splits a list at the first `'/'`: the part before it and the remainder
starting with the `'/'` (or `[]`). -/
def spanNonSlash : List Char → List Char × List Char
  | [] => ([], [])
  | c :: rest =>
    if c = '/' then ([], c :: rest)
    else
      let p := spanNonSlash rest
      (c :: p.1, p.2)

/-- The portion of a path up to and including its last `'/'` (empty if the
path has no slash). -/
def pathDirOf (p : List Char) : List Char :=
  ((p.reverse.dropWhile (fun c => c ≠ '/')).reverse)

/-- Splits a path on `'/'` into segments (inverse of `joinSlash`). -/
def splitOnSlash : List Char → List (List Char)
  | [] => [[]]
  | c :: rest =>
    let r := splitOnSlash rest
    if c = '/' then [] :: r
    else
      match r with
      | s :: ss => (c :: s) :: ss
      | [] => [[c]]

/-- Joins path segments with `'/'`. -/
def joinSlash (segs : List (List Char)) : List Char :=
  (segs.intersperse ['/']).flatten

/-- Pops one segment of the accumulator of `rdsGo`, never popping the
root marker (the RFC 3986 rule that `..` cannot climb above the root). -/
def rdsPop (acc : List (List Char)) : List (List Char) :=
  match acc with
  | [] => []
  | [x] => [x]
  | _ :: rest => rest

/-- RFC 3986 dot-segment removal over a reversed accumulator of already
emitted segments, as performed by `urllib.parse.urljoin` when merging
paths. -/
def rdsGo (acc : List (List Char)) : List (List Char) → List (List Char)
  | [] => acc.reverse
  | seg :: rest =>
    if seg = ['.'] then
      if rest = [] then ([] :: acc).reverse else rdsGo acc rest
    else if seg = ['.', '.'] then
      if rest = [] then ([] :: rdsPop acc).reverse else rdsGo (rdsPop acc) rest
    else rdsGo (seg :: acc) rest

/-- Removes `.` and `..` segments from a path. -/
def removeDotSegments (p : List Char) : List Char :=
  joinSlash (rdsGo [] (splitOnSlash p))

/-- Python `urllib.parse.urljoin(base, rel)` restricted to the shapes the
scraper meets: `base` is an absolute `scheme://host/path` URL; `rel` is
either empty, an absolute URL (returned as is), protocol-relative,
an absolute path, or a relative path (merged against the base path's
directory with dot-segment removal).  Query/fragment splitting is not
modelled: the scraper filters the listing server's `?C=...` sort hrefs
before ever resolving them. -/
def pyUrljoin (base rel : String) : String :=
  if rel = "" then base
  else if hasScheme rel then rel
  else
    match schemeSplit base.data with
    | none => rel
    | some (scheme, afterColon) =>
      if afterColon.take 2 = ['/', '/'] then
        let hostRest := afterColon.drop 2
        let hp := spanNonSlash hostRest
        let pre := scheme ++ [':', '/', '/'] ++ hp.1
        let rd := rel.data
        if rd.take 2 = ['/', '/'] then ⟨scheme ++ [':'] ++ rd⟩
        else if rd.head? = some '/' then ⟨pre ++ removeDotSegments rd⟩
        else
          let dir := if hp.2 = [] then ['/'] else pathDirOf hp.2
          ⟨pre ++ removeDotSegments (dir ++ rd)⟩
      else rel

/-! ## Data model: links, pages, servers, tasks, events -/

/-- One anchor tag on a listing page: its `href` attribute (absent when the
tag has none, in which case `link.get('href')` is `None`) and its direct
string children (what `"Parent Directory" in link` inspects). -/
structure Link where
  href : Option String
  texts : List String
deriving DecidableEq

/-- A fetched listing page is its list of anchors (`soup.find_all('a')`). -/
abbrev Page := List Link

/-- The remote listing server as seen through `get_soup`: `none` models a
fetch failure (network error, timeout, non-success status), where
`get_soup` returns `None`. -/
abbrev Server := String → Option Page

/-- A queued download (url, local path) pair, as put on
`self.download_queue`. -/
structure Task where
  url : String
  path : String
deriving DecidableEq

/-- Observable log events of the walk (the `print` calls that the claims
reference). -/
inductive Ev where
  | depthExceeded (url : String)
  | fetchFail (url : String)
  | skipIgnored (href : String)
deriving DecidableEq

/-- The navigational hrefs skipped by all three directory loops
(lines 104, 127 and 149 of `scraper.py`). -/
def navHrefs : List String :=
  ["/", "../", "?C=N;O=D", "?C=M;O=A", "?C=S;O=A", "?C=D;O=A"]

/-- Constructor-time normalisation of the ignored-extension configuration
(line 19: `ext.lower().strip('.')`). -/
def normalizeExts (l : List String) : List String :=
  l.map (fun e => pyStripChar '.' (pyLower e))

/-- Line 30, `should_download_file`: the lowercased name's `splitext`
extension, stripped of dots, must not be among the ignored extensions. -/
def should_download_file (ign : List String) (filename : String) : Bool :=
  let ext := pyStripChar '.' (⟨pySplitextExt (pyLower filename).data⟩ : String)
  !(ign.contains ext)

/-- Lines 167-168: the local path of a discovered file URL is the download
root joined with the URL with every occurrence of the base URL removed and
leading/trailing slashes stripped. -/
def localPathOf (base root u : String) : String :=
  posixJoin root (pyStripChar '/' (pyReplaceEmpty u base))

/-- Lines 162-174: a file href is turned into a download task exactly when
its extension is not ignored (`full` is the already-resolved URL of the
href). -/
def fileLinkTask (ign : List String) (base root h full : String) : Option Task :=
  if should_download_file ign h then some ⟨full, localPathOf base root full⟩
  else none

/-- Classification a link receives in `process_firmware_directory`
(lines 147-161): navigational noise is skipped (empty/missing href, the
self/parent hrefs, the four sort-order query hrefs, or a direct child
string "Parent Directory"); otherwise a trailing slash means
subdirectory, anything else a file. -/
inductive LinkClass where
  | ignoreNavigational
  | directory
  | file
deriving DecidableEq

/-- The link filter of `process_firmware_directory`, read off the if-chain
on lines 147-161 of `scraper.py`. -/
def classifyLink (l : Link) : LinkClass :=
  match l.href with
  | none => .ignoreNavigational
  | some h =>
    if h = "" ∨ h ∈ navHrefs then .ignoreNavigational
    else if "Parent Directory" ∈ l.texts then .ignoreNavigational
    else if endsWithChar '/' h then .directory
    else .file

/-- Pairwise concatenation of (tasks, events) results. -/
def combineRes (a b : List Task × List Ev) : List Task × List Ev :=
  (a.1 ++ b.1, a.2 ++ b.2)

/-- Fueled embedding of `process_firmware_directory` (lines 135-177).
Fuel `maxDepth + 1 - depth` plays the role of the `depth > max_depth`
guard: fuel `0` is exactly `depth > max_depth`, and each recursion into a
subdirectory decrements the fuel just as the Python increments `depth`.
Making the recursion structural in the fuel keeps the definition
kernel-reducible while the depth bound still guarantees termination even
on self-referential trees. -/
def processFwGo (server : Server) (base root : String) (ign : List String) :
    Nat → String → List Task × List Ev
  | 0, durl => ([], [Ev.depthExceeded durl])
  | f + 1, durl =>
    match server durl with
    | none => ([], [Ev.fetchFail durl])
    | some links =>
      links.foldr
        (fun l acc =>
          combineRes
            (match classifyLink l, l.href with
             | .directory, some h =>
               processFwGo server base root ign f (pyUrljoin durl (pyUnquote h))
             | .file, some h =>
               (match fileLinkTask ign base root h (pyUrljoin durl (pyUnquote h)) with
                | some t => ([t], [])
                | none => ([], [Ev.skipIgnored h]))
             | _, _ => ([], []))
            acc)
        ([], [])

/-- `process_firmware_directory(directory_url, depth, max_depth)`: the
depth-phrased wrapper around the fueled walker; the call sites use
`depth = 0`, `max_depth = 5` (the Python defaults). -/
def process_firmware_directory (server : Server) (base root : String)
    (ign : List String) (durl : String) (depth max_depth : Nat) :
    List Task × List Ev :=
  processFwGo server base root ign (max_depth + 1 - depth) durl

/-- The contribution of a single link of a firmware-directory page; by
construction `processFwGo` folds this over the page (see
`processFwGo_some`). -/
def linkRes (server : Server) (base root : String) (ign : List String)
    (f : Nat) (durl : String) (l : Link) : List Task × List Ev :=
  match classifyLink l, l.href with
  | .directory, some h =>
    processFwGo server base root ign f (pyUrljoin durl (pyUnquote h))
  | .file, some h =>
    (match fileLinkTask ign base root h (pyUrljoin durl (pyUnquote h)) with
     | some t => ([t], [])
     | none => ([], [Ev.skipIgnored h]))
  | _, _ => ([], [])

/-- Collected output of one walker call: discovered firmware directory
URLs, queued download tasks, and log events. -/
structure WalkRes where
  fwdirs : List String
  tasks : List Task
  evs : List Ev
deriving DecidableEq

/-- Componentwise concatenation of walk results. -/
def combineW (a b : WalkRes) : WalkRes :=
  ⟨a.fwdirs ++ b.fwdirs, a.tasks ++ b.tasks, a.evs ++ b.evs⟩

/-- The contribution of one link of a submodel page (the body of the loop
on lines 125-133): on a non-navigational link whose lowercased href is in
`['firmware/', 'Firmware/']` (the literal membership test of line 130 —
note the second element can never match a lowercased string), the resolved
URL is recorded as a firmware directory and the firmware walk starts at
depth 0 with max depth 5. -/
def subLinkRes (server : Server) (base root : String) (ign : List String)
    (surl : String) (l : Link) : WalkRes :=
  match l.href with
  | none => ⟨[], [], []⟩
  | some h =>
    if h = "" ∨ h ∈ navHrefs then ⟨[], [], []⟩
    else if pyLower h ∈ (["firmware/", "Firmware/"] : List String) then
      let fw := pyUrljoin surl (pyUnquote h)
      let r := process_firmware_directory server base root ign fw 0 5
      ⟨[fw], r.1, r.2⟩
    else ⟨[], [], []⟩

/-- `process_submodel_directory` (lines 118-133). -/
def process_submodel_directory (server : Server) (base root : String)
    (ign : List String) (surl : String) : WalkRes :=
  match server surl with
  | none => ⟨[], [], [Ev.fetchFail surl]⟩
  | some links =>
    links.foldr
      (fun l acc => combineW (subLinkRes server base root ign surl l) acc)
      ⟨[], [], []⟩

/-- The contribution of one link of a model page (the body of the loop on
lines 102-112): every non-navigational link with a trailing slash is a
submodel directory and is walked. -/
def modelLinkRes (server : Server) (base root : String) (ign : List String)
    (murl : String) (l : Link) : WalkRes :=
  match l.href with
  | none => ⟨[], [], []⟩
  | some h =>
    if h = "" ∨ h ∈ navHrefs then ⟨[], [], []⟩
    else if endsWithChar '/' h then
      process_submodel_directory server base root ign
        (pyUrljoin murl (pyUnquote h))
    else ⟨[], [], []⟩

/-- `process_model_directory` (lines 93-116); the Python submits the
submodel walks concurrently and then joins, so the fold models the joined
result in page order. -/
def process_model_directory (server : Server) (base root : String)
    (ign : List String) (murl : String) : WalkRes :=
  match server murl with
  | none => ⟨[], [], [Ev.fetchFail murl]⟩
  | some links =>
    links.foldr
      (fun l acc => combineW (modelLinkRes server base root ign murl l) acc)
      ⟨[], [], []⟩

/-- The spec's reading of the extension of a file name: the substring
after the last `'.'` (empty when there is no dot).  Declared only to be
compared with the source's `os.path.splitext`-based computation; the two
disagree on hidden-file names such as `".md5"`. -/
def specExtAfterLastDot (name : String) : String :=
  match rlastIdx '.' name.data with
  | none => ""
  | some i => ⟨name.data.drop (i + 1)⟩

/-! ## Downloads: filesystem, retry loop, extraction, pipeline -/

/-- File contents as a byte list. -/
abbrev Bytes := List Nat

/-- The local filesystem: a partial map from paths to file bytes
(`os.path.exists` is `isSome`; directories need no modelling since
`os.makedirs` creates no files). -/
abbrev FS := String → Option Bytes

/-- Writing one file. -/
def fsUpdate (fs : FS) (p : String) (b : Bytes) : FS :=
  fun q => if q = p then some b else fs q

/-- Writing a batch of files (what `extractall` does: it only adds or
overwrites files, never removes any). -/
def overlay (fs : FS) (files : List (String × Bytes)) : FS :=
  files.foldl (fun f pb => fsUpdate f pb.1 pb.2) fs

/-- Outcome of the archive-extraction collaborator on one archive:
either the extracted member files, or the archive is corrupt
(`zipfile.BadZipFile` / `rarfile.BadRarFile`). -/
inductive ExtractRes where
  | ok (files : List (String × Bytes))
  | corrupt

/-- The extraction collaborator. -/
abbrev Extractor := String → ExtractRes

/-- `unpack_file` (lines 76-91): extracts `.zip` (or else `.rar`) archives
into place; a corrupt archive is only logged — the failure is swallowed
inside this function and never reaches the caller. -/
def unpack_file (exb : Extractor) (path : String) (fs : FS) : FS :=
  if strEndsWith ".zip" path then
    match exb path with
    | .ok files => overlay fs files
    | .corrupt => fs
  else if strEndsWith ".rar" path then
    match exb path with
    | .ok files => overlay fs files
    | .corrupt => fs
  else fs

/-- Everything observable about one `download_file` call: the filesystem
afterwards, the returned boolean, how many GET requests were issued, the
backoff sleeps performed (in order), and whether `unpack_file` ran. -/
structure DLOut where
  fs : FS
  result : Bool
  fetches : Nat
  delays : List Nat
  unpacked : Bool

/-- The retry loop of `download_file` (lines 51-74).  `anet k` is the
outcome of the `k`-th GET-plus-write attempt (`none` = any exception in
the `try` body); `remaining` counts the attempts the `range` still holds,
so `remaining = 0` is the (unreachable from `download_file`) exhausted
loop.  On a failed attempt that is not the last one the loop sleeps
`2 ** attempt`. -/
def dlGo (anet : Nat → Option Bytes) (exb : Extractor) (path : String) :
    Nat → Nat → FS → DLOut
  | _, 0, fs => ⟨fs, false, 0, [], false⟩
  | attempt, r + 1, fs =>
    match anet attempt with
    | some b =>
      let fs1 := fsUpdate fs path b
      let doUnp := strEndsWith ".zip" path || strEndsWith ".rar" path
      ⟨if doUnp then unpack_file exb path fs1 else fs1, true, 1, [], doUnp⟩
    | none =>
      if r = 0 then ⟨fs, false, 1, [], false⟩
      else
        let o := dlGo anet exb path (attempt + 1) r fs
        ⟨o.fs, o.result, o.fetches + 1, 2 ^ attempt :: o.delays, o.unpacked⟩

/-- `download_file` (lines 44-74): skip (returning `False`, making no
request) when the local path already exists, otherwise run the retry loop
with `max_retries = 3` starting at attempt 0. -/
def download_file (anet : Nat → Option Bytes) (exb : Extractor)
    (path : String) (fs : FS) : DLOut :=
  if (fs path).isSome then ⟨fs, false, 0, [], false⟩
  else dlGo anet exb path 0 3 fs

/-- The download pipeline over a queue of tasks, in queue order: the
worker threads of `start_download_workers` drain the queue by calling
`download_file` on each task; `net u` is what a GET of `u` returns on
this run (the remote tree, constant across a task's retry attempts).
Returns the final filesystem and the total number of GET requests. -/
def runDownloads (net : String → Option Bytes) (exb : Extractor) :
    List Task → FS → FS × Nat
  | [], fs => (fs, 0)
  | t :: rest, fs =>
    let o := download_file (fun _ => net t.url) exb t.path fs
    let r := runDownloads net exb rest o.fs
    (r.1, o.fetches + r.2)

/-- Insertion into a sorted list of strings. -/
def insSorted (x : String) : List String → List String
  | [] => [x]
  | y :: ys => if x ≤ y then x :: y :: ys else y :: insSorted x ys

/-- Sorting the firmware-directory summary (`sorted(self.firmware_paths)`). -/
def sortStrs (l : List String) : List String :=
  l.foldr insSorted []

/-- Result of a whole run: the sorted, deduplicated firmware-directory
summary, its count, the final filesystem, total GETs and the walk log. -/
structure RunRes where
  fwdirs : List String
  count : Nat
  fs : FS
  fetches : Nat
  evs : List Ev

/-- `run` (lines 201-228): walk every configured model prefix, drain the
download queue, and report the sorted summary of discovered firmware
directories (`self.firmware_paths` is a set, hence the dedup). -/
def runScraper (server : Server) (net : String → Option Bytes)
    (exb : Extractor) (base root : String) (ign0 : List String)
    (models : List String) (fs : FS) : RunRes :=
  let ign := normalizeExts ign0
  let walk := models.foldr
    (fun m acc =>
      let r := process_model_directory server base root ign
        (pyUrljoin base (m ++ "/"))
      (⟨r.fwdirs ++ acc.fwdirs, r.tasks ++ acc.tasks, r.evs ++ acc.evs⟩ : WalkRes))
    ⟨[], [], []⟩
  let d := runDownloads net exb walk.tasks fs
  let fws := sortStrs walk.fwdirs.dedup
  ⟨fws, fws.length, d.1, d.2, walk.evs⟩

/-! ## General lemmas about the download pipeline -/

theorem fsUpdate_pres (fs : FS) (p : String) (b : Bytes) (q : String)
    (h : (fs q).isSome = true) : ((fsUpdate fs p b) q).isSome = true := by
  unfold fsUpdate; split <;> simp [h]

theorem overlay_pres (files : List (String × Bytes)) : ∀ (fs : FS) (q : String),
    (fs q).isSome = true → ((overlay fs files) q).isSome = true := by
  induction files with
  | nil => intro fs q h; exact h
  | cons pb rest ih =>
    intro fs q h
    exact ih (fsUpdate fs pb.1 pb.2) q (fsUpdate_pres fs pb.1 pb.2 q h)

theorem unpack_pres (exb : Extractor) (p : String) (fs : FS) (q : String)
    (h : (fs q).isSome = true) : ((unpack_file exb p fs) q).isSome = true := by
  unfold unpack_file
  split_ifs <;>
    (first
      | exact h
      | (cases hx : exb p <;> simp [hx, h, overlay_pres _ fs q h]))

theorem dlGo_pres (anet : Nat → Option Bytes) (exb : Extractor) (path : String) :
    ∀ (r attempt : Nat) (fs : FS) (q : String), (fs q).isSome = true →
      ((dlGo anet exb path attempt r fs).fs q).isSome = true := by
  intro r
  induction r with
  | zero => intro attempt fs q h; exact h
  | succ n ih =>
    intro attempt fs q h
    rcases ha : anet attempt with _ | b
    · simp only [dlGo, ha]
      split_ifs with h1
      · exact h
      · exact ih (attempt + 1) fs q h
    · simp only [dlGo, ha]
      split_ifs with h1
      · exact unpack_pres exb path _ q (fsUpdate_pres fs path b q h)
      · exact fsUpdate_pres fs path b q h

theorem download_pres (anet : Nat → Option Bytes) (exb : Extractor)
    (path : String) (fs : FS) (q : String) (h : (fs q).isSome = true) :
    ((download_file anet exb path fs).fs q).isSome = true := by
  unfold download_file
  split_ifs with h1
  · exact h
  · exact dlGo_pres anet exb path 3 0 fs q h

theorem download_creates (anet : Nat → Option Bytes) (exb : Extractor)
    (path : String) (fs : FS) (h0 : (anet 0).isSome = true) :
    ((download_file anet exb path fs).fs path).isSome = true := by
  unfold download_file
  split_ifs with h1
  · exact h1
  · rcases hb : anet 0 with _ | b
    · rw [hb] at h0; exact Bool.noConfusion h0
    · simp only [dlGo, hb]
      split_ifs with h2
      · refine unpack_pres exb path _ path ?_
        simp [fsUpdate]
      · simp [fsUpdate]

theorem run_pres (net : String → Option Bytes) (exb : Extractor) :
    ∀ (tasks : List Task) (fs : FS) (q : String), (fs q).isSome = true →
      ((runDownloads net exb tasks fs).1 q).isSome = true := by
  intro tasks
  induction tasks with
  | nil => intro fs q h; exact h
  | cons t rest ih =>
    intro fs q h
    exact ih _ q (download_pres _ exb t.path fs q h)

theorem run_creates (net : String → Option Bytes) (exb : Extractor) :
    ∀ (tasks : List Task) (fs : FS),
      (∀ t ∈ tasks, (net t.url).isSome = true) →
      ∀ t ∈ tasks, ((runDownloads net exb tasks fs).1 t.path).isSome = true := by
  intro tasks
  induction tasks with
  | nil => intro fs _ t ht; exact absurd ht (List.not_mem_nil t)
  | cons s rest ih =>
    intro fs hall t ht
    rcases List.mem_cons.mp ht with rfl | hmem
    · exact run_pres net exb rest _ t.path
        (download_creates _ exb t.path fs (hall t (List.mem_cons_self t rest)))
    · exact ih _ (fun u hu => hall u (List.mem_cons_of_mem s hu)) t hmem

theorem download_skip (anet : Nat → Option Bytes) (exb : Extractor)
    (path : String) (fs : FS) (h : (fs path).isSome = true) :
    download_file anet exb path fs = ⟨fs, false, 0, [], false⟩ := by
  unfold download_file
  simp [h]

theorem run_skip (net : String → Option Bytes) (exb : Extractor) :
    ∀ (tasks : List Task) (fs : FS),
      (∀ t ∈ tasks, (fs t.path).isSome = true) →
      runDownloads net exb tasks fs = (fs, 0) := by
  intro tasks
  induction tasks with
  | nil => intro fs _; rfl
  | cons t rest ih =>
    intro fs hall
    have hd := download_skip (fun _ => net t.url) exb t.path fs
      (hall t (List.mem_cons_self t rest))
    simp only [runDownloads, hd]
    rw [ih fs (fun u hu => hall u (List.mem_cons_of_mem t hu))]
    rfl

/-! ## Claim C5 -/

/-- Claim C5: the link filter of the firmware walk classifies a link as
`ignoreNavigational` exactly when the href is empty, the self (`/`) or
parent (`../`) reference, one of the four sort-order query markers, or
the anchor's label is the literal string "Parent Directory"; any other
link is `directory` iff its href ends with a slash, and `file`
otherwise. -/
theorem c5_link_filter_classification (h : String) (texts : List String) :
    (classifyLink ⟨some h, texts⟩ = LinkClass.ignoreNavigational ↔
      (h = "" ∨ h = "/" ∨ h = "../" ∨ h = "?C=N;O=D" ∨ h = "?C=M;O=A" ∨
       h = "?C=S;O=A" ∨ h = "?C=D;O=A" ∨ "Parent Directory" ∈ texts)) ∧
    (classifyLink ⟨some h, texts⟩ = LinkClass.directory ↔
      (¬ (h = "" ∨ h = "/" ∨ h = "../" ∨ h = "?C=N;O=D" ∨ h = "?C=M;O=A" ∨
          h = "?C=S;O=A" ∨ h = "?C=D;O=A" ∨ "Parent Directory" ∈ texts) ∧
       endsWithChar '/' h = true)) ∧
    (classifyLink ⟨some h, texts⟩ = LinkClass.file ↔
      (¬ (h = "" ∨ h = "/" ∨ h = "../" ∨ h = "?C=N;O=D" ∨ h = "?C=M;O=A" ∨
          h = "?C=S;O=A" ∨ h = "?C=D;O=A" ∨ "Parent Directory" ∈ texts) ∧
       endsWithChar '/' h = false)) := by
  simp only [classifyLink, navHrefs, List.mem_cons, List.not_mem_nil, or_false]
  split_ifs with h1 h2 h3 <;> simp_all <;> tauto

/-! ## Claim C10 -/

/-- Claim C10: `download_file` returns `True` exactly when the local path
did not already exist and one of the (at most three) attempts succeeded;
in particular it returns `False` both for the skip case and for the
all-attempts-failed case, so the caller cannot distinguish the two from
the boolean alone. -/
theorem c10_download_result (anet : Nat → Option Bytes) (exb : Extractor)
    (path : String) (fs : FS) :
    ((download_file anet exb path fs).result = true ↔
      (fs path = none ∧ ∃ k, k < 3 ∧ (anet k).isSome = true)) := by
  by_cases hex : (fs path).isSome
  · have hne : ¬ fs path = none := by
      intro h; rw [h] at hex; exact Bool.noConfusion hex
    simp [download_file, hex, hne]
  · have hn : fs path = none := Option.not_isSome_iff_eq_none.mp hex
    rcases h0 : anet 0 with _ | b0 <;> rcases h1 : anet 1 with _ | b1 <;>
      rcases h2 : anet 2 with _ | b2 <;>
      simp [download_file, hex, hn, dlGo, h0, h1, h2]
    · intro k hk
      interval_cases k <;> simp [h0, h1, h2]
    · exact ⟨2, by omega, by simp [h2]⟩
    · exact ⟨1, by omega, by simp [h1]⟩
    · exact ⟨1, by omega, by simp [h1]⟩
    · exact ⟨0, by omega, by simp [h0]⟩
    · exact ⟨0, by omega, by simp [h0]⟩
    · exact ⟨0, by omega, by simp [h0]⟩
    · exact ⟨0, by omega, by simp [h0]⟩

/-! ## Claim C3 -/

/-- Claim C3: when the local path does not exist, `download_file` makes at
most 3 GET attempts; the delay slept after the `k`-th failed attempt is
`2 ^ k` time units (base 1, so the delays are non-decreasing); failing
the first 2 attempts and succeeding on the 3rd yields exactly 3 fetches
and a `True` (succeeded) result; all 3 failing yields 3 fetches and a
`False` (failed) result, with the function returning normally. -/
theorem c3_retry_backoff (anet : Nat → Option Bytes) (exb : Extractor)
    (path : String) (fs : FS) (hne : fs path = none) :
    (download_file anet exb path fs).fetches ≤ 3 ∧
    (∀ k, k < (download_file anet exb path fs).delays.length →
      (download_file anet exb path fs).delays.getD k 0 = 2 ^ k) ∧
    List.Chain' (· ≤ ·) (download_file anet exb path fs).delays ∧
    ((anet 0 = none ∧ anet 1 = none ∧ (anet 2).isSome = true) →
      (download_file anet exb path fs).fetches = 3 ∧
      (download_file anet exb path fs).result = true) ∧
    ((anet 0 = none ∧ anet 1 = none ∧ anet 2 = none) →
      (download_file anet exb path fs).fetches = 3 ∧
      (download_file anet exb path fs).result = false) := by
  have hex : (fs path).isSome = false := by simp [hne]
  rcases h0 : anet 0 with _ | b0 <;> rcases h1 : anet 1 with _ | b1 <;>
    rcases h2 : anet 2 with _ | b2 <;>
    simp [download_file, hex, dlGo, h0, h1, h2, List.Chain'] <;>
    (intro k hk; interval_cases k <;> rfl)

/-- Attempt outcomes for the C3 witness scenario: the first two attempts
fail, the third succeeds. -/
def wAnet : Nat → Option Bytes := fun k => if k = 2 then some [7] else none

/-- An extractor for witness scenarios. -/
def wExtractor : Extractor := fun _ => ExtractRes.corrupt

/-- The empty local filesystem. -/
def emptyFS : FS := fun _ => none

/-- Witness for C3: the fail-fail-succeed source yields exactly 3 fetches
and a succeeded task. -/
theorem c3_retry_backoff_witness :
    (download_file wAnet wExtractor "p" emptyFS).fetches = 3 ∧
    (download_file wAnet wExtractor "p" emptyFS).result = true :=
  (c3_retry_backoff wAnet wExtractor "p" emptyFS rfl).2.2.2.1 ⟨rfl, rfl, rfl⟩

/-! ## Claim C8 -/

/-- Claim C8: after a successful fetch-and-write, extraction runs exactly
when the local path ends in `.zip` or `.rar`; a corrupt archive leaves
the filesystem unchanged inside `unpack_file` (only logged), and the
extraction outcome influences neither the returned success nor the number
of fetch attempts — no retry is caused by extraction failure. -/
theorem c8_extraction_on_success (anet : Nat → Option Bytes)
    (exb1 exb2 : Extractor) (path : String) (fs : FS)
    (hne : fs path = none) (h0 : (anet 0).isSome = true) :
    ((download_file anet exb1 path fs).unpacked = true ↔
      (strEndsWith ".zip" path || strEndsWith ".rar" path) = true) ∧
    (download_file anet exb1 path fs).result = true ∧
    (download_file anet exb1 path fs).fetches = 1 ∧
    (download_file anet exb2 path fs).result =
      (download_file anet exb1 path fs).result ∧
    (download_file anet exb2 path fs).fetches =
      (download_file anet exb1 path fs).fetches ∧
    (∀ (exb : Extractor) (p : String) (fsx : FS),
      exb p = ExtractRes.corrupt → unpack_file exb p fsx = fsx) := by
  have hex : (fs path).isSome = false := by simp [hne]
  rcases hb : anet 0 with _ | b0
  · rw [hb] at h0; exact Bool.noConfusion h0
  refine ⟨?_, ?_, ?_, ?_, ?_, ?_⟩ <;>
    try simp [download_file, hex, dlGo, hb]
  intro exb p fsx hcor
  unfold unpack_file
  split_ifs <;> simp [hcor]

/-- Attempt outcomes that always succeed, for witnesses. -/
def wAnetOk : Nat → Option Bytes := fun _ => some [5]

/-- A succeeding extractor for witnesses. -/
def wExtractorOk : Extractor := fun _ => ExtractRes.ok []

/-- Witness for C8: a `.zip` download with a corrupt archive still
succeeds in one fetch and triggers extraction. -/
theorem c8_extraction_on_success_witness :
    ((download_file wAnetOk wExtractor "p.zip" emptyFS).unpacked = true ↔
      (strEndsWith ".zip" "p.zip" || strEndsWith ".rar" "p.zip") = true) ∧
    (download_file wAnetOk wExtractor "p.zip" emptyFS).result = true ∧
    (download_file wAnetOk wExtractor "p.zip" emptyFS).fetches = 1 ∧
    (download_file wAnetOk wExtractorOk "p.zip" emptyFS).result =
      (download_file wAnetOk wExtractor "p.zip" emptyFS).result ∧
    (download_file wAnetOk wExtractorOk "p.zip" emptyFS).fetches =
      (download_file wAnetOk wExtractor "p.zip" emptyFS).fetches ∧
    (∀ (exb : Extractor) (p : String) (fsx : FS),
      exb p = ExtractRes.corrupt → unpack_file exb p fsx = fsx) :=
  c8_extraction_on_success wAnetOk wExtractor wExtractorOk "p.zip" emptyFS rfl rfl

/-! ## Claim C2 -/

/-- Claim C2: a task whose local path already exists performs no fetch and
leaves the whole filesystem (hence the existing file's bytes) unchanged,
returning the skipped marker; and when the remote serves every task's URL
(the unchanged-remote-tree assumption), a second run of the download
pipeline over the same task list performs zero fetches — every task
resolves to the skip case — and leaves the local file tree identical. -/
theorem c2_skip_and_idempotence (net : String → Option Bytes)
    (exb : Extractor) (tasks : List Task) (fs : FS)
    (hall : ∀ t ∈ tasks, (net t.url).isSome = true)
    (anet : Nat → Option Bytes) (path : String) (fs0 : FS) (b : Bytes)
    (hex : fs0 path = some b) :
    download_file anet exb path fs0 = ⟨fs0, false, 0, [], false⟩ ∧
    runDownloads net exb tasks ((runDownloads net exb tasks fs).1) =
      ((runDownloads net exb tasks fs).1, 0) := by
  constructor
  · exact download_skip anet exb path fs0 (by simp [hex])
  · exact run_skip net exb tasks _ (run_creates net exb tasks fs hall)

/-- A remote tree serving every URL, for the C2 witness. -/
def wNet : String → Option Bytes := fun _ => some [9]

/-- A filesystem already holding the file `"p"`, for the C2 witness. -/
def wFS : FS := fun q => if q = "p" then some [1] else none

/-- Witness for C2 at a concrete one-task pipeline. -/
theorem c2_skip_and_idempotence_witness :
    download_file wAnetOk wExtractor "p" wFS = ⟨wFS, false, 0, [], false⟩ ∧
    runDownloads wNet wExtractor [⟨"u", "q"⟩]
        ((runDownloads wNet wExtractor [⟨"u", "q"⟩] emptyFS).1) =
      ((runDownloads wNet wExtractor [⟨"u", "q"⟩] emptyFS).1, 0) :=
  c2_skip_and_idempotence wNet wExtractor [⟨"u", "q"⟩] emptyFS
    (fun t ht => by rcases List.mem_singleton.mp ht with rfl; rfl)
    wAnetOk "p" wFS [1] rfl

/-! ## Lemmas about `removeOccs`, `pyStripChar` and `posixJoin` -/

theorem roGo_fuel (pat : List Char) :
    ∀ (f1 : Nat), ∀ (s : List Char) (f2 : Nat), s.length ≤ f1 → s.length ≤ f2 →
      roGo pat f1 s = roGo pat f2 s := by
  intro f1
  induction f1 with
  | zero =>
    intro s f2 h1 _
    have : s = [] := List.eq_nil_of_length_eq_zero (Nat.le_zero.mp h1)
    subst this
    cases f2 <;> rfl
  | succ f ih =>
    intro s f2 h1 h2
    cases s with
    | nil => cases f2 <;> rfl
    | cons a rest =>
      have h1' : rest.length + 1 ≤ f + 1 := by simpa using h1
      cases f2 with
      | zero => exact absurd h2 (by simp)
      | succ g =>
        have h2' : rest.length + 1 ≤ g + 1 := by simpa using h2
        simp only [roGo]
        split_ifs with hc
        · have hp : 1 ≤ pat.length := by
            cases pat with
            | nil => exact absurd rfl hc.1
            | cons c cs => simp
          have hd : ((a :: rest).drop pat.length).length =
              rest.length + 1 - pat.length := by
            simp [List.length_drop]
          exact ih _ g (by omega) (by omega)
        · rw [ih rest g (by omega) (by omega)]

theorem roGo_noOcc (pat : List Char) :
    ∀ (f : Nat) (s : List Char), s.length ≤ f →
      (∀ i, pat.isPrefixOf (s.drop i) = false) → roGo pat f s = s := by
  intro f
  induction f with
  | zero =>
    intro s h _
    have : s = [] := List.eq_nil_of_length_eq_zero (Nat.le_zero.mp h)
    subst this; rfl
  | succ f ih =>
    intro s hl hno
    cases s with
    | nil => rfl
    | cons a rest =>
      simp only [roGo]
      have h0 := hno 0
      simp only [List.drop_zero] at h0
      rw [if_neg (by simp [h0])]
      congr 1
      refine ih rest (by simp at hl; omega) ?_
      intro i
      have := hno (i + 1)
      simpa using this

theorem removeOccs_self_append (pat s : List Char) (hp : pat ≠ []) :
    removeOccs pat (pat ++ s) = removeOccs pat s := by
  unfold removeOccs
  cases hpat : pat with
  | nil => exact absurd hpat hp
  | cons p pt =>
    rw [← hpat]
    have hone : 1 ≤ pat.length := by rw [hpat]; simp
    have hfuel : (pat ++ s).length = (pat.length - 1 + s.length) + 1 := by
      simp only [List.length_append]; omega
    rw [hfuel]
    have hshape : pat ++ s = p :: (pt ++ s) := by rw [hpat]; rfl
    rw [hshape]
    simp only [roGo]
    rw [if_pos ?hc]
    case hc =>
      refine ⟨hp, ?_⟩
      rw [← hshape]
      exact List.isPrefixOf_iff_prefix.mpr (List.prefix_append pat s)
    have hdrop : (p :: (pt ++ s)).drop pat.length = s := by
      rw [← hshape]
      exact List.drop_left pat s
    rw [hdrop]
    exact roGo_fuel pat _ s s.length (by omega) (Nat.le_refl _)

theorem noOccB_spec (pat s : List Char) (hp : pat ≠ []) (h : noOccB pat s = true) :
    ∀ i, pat.isPrefixOf (s.drop i) = false := by
  intro i
  by_cases hi : i < s.length + 1
  · have := List.all_eq_true.mp h i (List.mem_range.mpr hi)
    simpa using this
  · have : s.drop i = [] := List.drop_eq_nil_of_le (by omega)
    rw [this]
    cases pat with
    | nil => exact absurd rfl hp
    | cons p pt => rfl

theorem removeOccs_strip (b s : List Char) (hb : b ≠ [])
    (hno : noOccB b s = true) : removeOccs b (b ++ s) = s := by
  rw [removeOccs_self_append b s hb]
  unfold removeOccs
  exact roGo_noOcc b s.length s (Nat.le_refl _) (noOccB_spec b s hb hno)

theorem pyStripChar_eq_self (c : Char) (s : String)
    (h1 : s.data.head? ≠ some c) (h2 : s.data.getLast? ≠ some c) :
    pyStripChar c s = s := by
  refine String.ext ?_
  show ((s.data.dropWhile (· = c)).reverse.dropWhile (· = c)).reverse = s.data
  have hd : s.data.dropWhile (· = c) = s.data := by
    cases hs : s.data with
    | nil => rfl
    | cons a rest =>
      have : a ≠ c := by
        intro hac; apply h1; rw [hs, hac]; rfl
      simp [List.dropWhile_cons, this]
  rw [hd]
  have hr : s.data.reverse.dropWhile (· = c) = s.data.reverse := by
    cases hs : s.data.reverse with
    | nil => rfl
    | cons a rest =>
      have hla : s.data.getLast? = some a := by
        rw [← List.head?_reverse, hs]; rfl
      have : a ≠ c := by
        intro hac; apply h2; rw [hla, hac]
      simp [List.dropWhile_cons, this]
  rw [hr, List.reverse_reverse]

theorem strApp_cancel {a b c : String} (h : a ++ b = a ++ c) : b = c := by
  refine String.ext ?_
  have := congrArg String.data h
  simp only [String.data_append] at this
  exact List.append_cancel_left this

theorem posixJoin_inj (root s1 s2 : String)
    (h1 : s1.data.head? ≠ some '/') (h2 : s2.data.head? ≠ some '/')
    (h : posixJoin root s1 = posixJoin root s2) : s1 = s2 := by
  unfold posixJoin at h
  rw [if_neg h1, if_neg h2] at h
  by_cases hr : root = ""
  · rw [if_pos hr, if_pos hr] at h; exact h
  · rw [if_neg hr, if_neg hr] at h
    by_cases he : root.data.getLast? = some '/'
    · rw [if_pos he, if_pos he] at h
      exact strApp_cancel h
    · rw [if_neg he, if_neg he] at h
      have : root ++ ("/" ++ s1) = root ++ ("/" ++ s2) := by
        simpa [String.append_assoc] using h
      exact strApp_cancel (strApp_cancel this)

/-! ## Claim C1 -/

/-- Claim C1 (amended): for a file URL `b ++ s` whose relative part `s`
contains no occurrence of the (nonempty) base URL `b` and neither starts
nor ends with `'/'`, the computed local path is exactly the download root
joined with `s`; and on such URLs the path map is injective.  (The
unamended injectivity over all discovered URLs is refuted by
`c1_counterexample`.) -/
theorem c1_path_derivation (b root s1 s2 : String) (hb : b ≠ "")
    (hn1 : noOccB b.data s1.data = true) (hn2 : noOccB b.data s2.data = true)
    (e1h : s1.data.head? ≠ some '/') (e1l : s1.data.getLast? ≠ some '/')
    (e2h : s2.data.head? ≠ some '/') (e2l : s2.data.getLast? ≠ some '/') :
    localPathOf b root (b ++ s1) = posixJoin root s1 ∧
    localPathOf b root (b ++ s2) = posixJoin root s2 ∧
    (localPathOf b root (b ++ s1) = localPathOf b root (b ++ s2) →
      b ++ s1 = b ++ s2) := by
  have hbd : b.data ≠ [] := by
    intro hnil; apply hb; exact String.ext (by simp [hnil])
  have key : ∀ (s : String), noOccB b.data s.data = true →
      s.data.head? ≠ some '/' → s.data.getLast? ≠ some '/' →
      localPathOf b root (b ++ s) = posixJoin root s := by
    intro s hn eh el
    unfold localPathOf
    have hrep : pyReplaceEmpty (b ++ s) b = s := by
      refine String.ext ?_
      show removeOccs b.data (b ++ s).data = s.data
      rw [String.data_append]
      exact removeOccs_strip b.data s.data hbd hn
    rw [hrep, pyStripChar_eq_self '/' s eh el]
  refine ⟨key s1 hn1 e1h e1l, key s2 hn2 e2h e2l, ?_⟩
  intro heq
  rw [key s1 hn1 e1h e1l, key s2 hn2 e2h e2l] at heq
  rw [posixJoin_inj root s1 s2 e1h e2h heq]

/-- A firmware page containing the hrefs `a` and `a%2F` (the latter
percent-decodes to `a/`): both pass the file classification, resolve to
distinct URLs, and collide on the same local path. -/
def c1CexServer : Server := fun u =>
  if u = "http://h/fw/" then some [⟨some "a", []⟩, ⟨some "a%2F", []⟩] else none

/-- Counterexample to the unamended Claim C1: the walk discovers two
distinct source URLs (`.../a` and `.../a/`) whose computed local paths
are both `out/fw/a`, so the URL-to-path map is not injective on
discovered URLs even for a fixed well-formed base. -/
theorem c1_counterexample :
    (process_firmware_directory c1CexServer "http://h/" "out" [] "http://h/fw/" 0 5).1 =
      [⟨"http://h/fw/a", "out/fw/a"⟩, ⟨"http://h/fw/a/", "out/fw/a"⟩] ∧
    ("http://h/fw/a" : String) ≠ "http://h/fw/a/" := by
  constructor
  · rfl
  · decide

/-- Witness for C1 at concrete well-formed inputs. -/
theorem c1_path_derivation_witness :
    localPathOf "http://h/" "out" ("http://h/" ++ "fw/a.bin") =
      posixJoin "out" "fw/a.bin" ∧
    localPathOf "http://h/" "out" ("http://h/" ++ "fw/b.bin") =
      posixJoin "out" "fw/b.bin" ∧
    (localPathOf "http://h/" "out" ("http://h/" ++ "fw/a.bin") =
        localPathOf "http://h/" "out" ("http://h/" ++ "fw/b.bin") →
      ("http://h/" : String) ++ "fw/a.bin" = "http://h/" ++ "fw/b.bin") :=
  c1_path_derivation "http://h/" "out" "fw/a.bin" "fw/b.bin" (by decide)
    (by decide) (by decide) (by decide) (by decide) (by decide) (by decide)


/-! ## Claim C4: depth-bounded firmware walk -/

theorem processFwGo_zero (server : Server) (base root : String)
    (ign : List String) (durl : String) :
    processFwGo server base root ign 0 durl = ([], [Ev.depthExceeded durl]) := rfl

theorem processFwGo_none (server : Server) (base root : String)
    (ign : List String) (f : Nat) (durl : String) (hs : server durl = none) :
    processFwGo server base root ign (f + 1) durl = ([], [Ev.fetchFail durl]) := by
  simp [processFwGo, hs]

theorem processFwGo_some (server : Server) (base root : String)
    (ign : List String) (f : Nat) (durl : String) (links : Page)
    (hs : server durl = some links) :
    processFwGo server base root ign (f + 1) durl =
      links.foldr
        (fun l acc => combineRes (linkRes server base root ign f durl l) acc)
        ([], []) := by
  simp only [processFwGo, hs]
  rfl

theorem mem_pageFoldr (F : Link → List Task × List Ev) (links : List Link)
    (x : Task) :
    (x ∈ (links.foldr (fun l acc => combineRes (F l) acc) ([], [])).1 ↔
      ∃ l ∈ links, x ∈ (F l).1) := by
  induction links with
  | nil => simp
  | cons l rest ih =>
    constructor
    · intro hx
      rcases List.mem_append.mp hx with hx1 | hx2
      · exact ⟨l, List.mem_cons_self l rest, hx1⟩
      · obtain ⟨a, ha, hxa⟩ := ih.mp hx2
        exact ⟨a, List.mem_cons_of_mem l ha, hxa⟩
    · rintro ⟨a, ha, hxa⟩
      rcases List.mem_cons.mp ha with rfl | ha'
      · exact List.mem_append.mpr (Or.inl hxa)
      · exact List.mem_append.mpr (Or.inr (ih.mpr ⟨a, ha', hxa⟩))

/-- Reachability of directory `v` from `u` through `d` directory links of
the listing tree, exactly as the walk resolves them. -/
inductive Reaches (server : Server) : String → Nat → String → Prop
  | refl (u : String) : Reaches server u 0 u
  | step {u v : String} {d : Nat} {links : Page} {l : Link} {h : String} :
      server u = some links → l ∈ links → l.href = some h →
      classifyLink l = LinkClass.directory →
      Reaches server (pyUrljoin u (pyUnquote h)) d v →
      Reaches server u (d + 1) v

theorem fwGo_complete (server : Server) (base root : String) (ign : List String)
    {d : Nat} {start v : String} (hr : Reaches server start d v) :
    ∀ (f : Nat), d < f →
      ∀ (links : Page) (l : Link) (h : String) (t : Task),
        server v = some links → l ∈ links → l.href = some h →
        classifyLink l = LinkClass.file →
        fileLinkTask ign base root h (pyUrljoin v (pyUnquote h)) = some t →
        t ∈ (processFwGo server base root ign f start).1 := by
  induction hr with
  | refl u =>
    intro f hf links l h t hs hl hh hcls hft
    cases f with
    | zero => omega
    | succ f =>
      rw [processFwGo_some server base root ign f u links hs]
      refine (mem_pageFoldr _ links t).mpr ⟨l, hl, ?_⟩
      simp [linkRes, hcls, hh, hft]
  | @step u w dd links' l' h' hs' hl' hh' hcls' hrest ih =>
    intro f hf links l h t hs hl hh hcls hft
    cases f with
    | zero => omega
    | succ f =>
      rw [processFwGo_some server base root ign f u links' hs']
      refine (mem_pageFoldr _ links' t).mpr ⟨l', hl', ?_⟩
      have hlr : linkRes server base root ign f u l' =
          processFwGo server base root ign f (pyUrljoin u (pyUnquote h')) := by
        simp [linkRes, hcls', hh']
      rw [hlr]
      exact ih f (by omega) links l h t hs hl hh hcls hft

/-- URLs of a synthetic linear directory chain: depth `n` lives at
`http://h/fw/s/.../s/` with `n` copies of `s/`. -/
def c4DeepUrl : Nat → String
  | 0 => "http://h/fw/"
  | n + 1 => c4DeepUrl n ++ "s/"

/-- A synthetic tree of depth `maxDepth + 1 = 6`: every directory holds
one `.bin` file and one subdirectory. -/
def c4DeepServer : Server := fun u =>
  if u = c4DeepUrl 0 then some [⟨some "f0.bin", []⟩, ⟨some "s/", []⟩]
  else if u = c4DeepUrl 1 then some [⟨some "f1.bin", []⟩, ⟨some "s/", []⟩]
  else if u = c4DeepUrl 2 then some [⟨some "f2.bin", []⟩, ⟨some "s/", []⟩]
  else if u = c4DeepUrl 3 then some [⟨some "f3.bin", []⟩, ⟨some "s/", []⟩]
  else if u = c4DeepUrl 4 then some [⟨some "f4.bin", []⟩, ⟨some "s/", []⟩]
  else if u = c4DeepUrl 5 then some [⟨some "f5.bin", []⟩, ⟨some "s/", []⟩]
  else if u = c4DeepUrl 6 then some [⟨some "f6.bin", []⟩, ⟨some "s/", []⟩]
  else none

/-- A self-referential listing: the page links to itself. -/
def c4SelfServer : Server := fun u =>
  if u = "http://h/fw/" then some [⟨some "http://h/fw/", []⟩] else none

/-- Claim C4: a firmware-walk call with `depth > max_depth` aborts the
branch with a logged depth-exceeded event and discovers nothing; below
the bound each subdirectory link recurses at `depth + 1`; every file
reachable through at most `maxDepth = 5` directory links whose href
passes the file filter is discovered from a depth-0 walk; on the
synthetic depth-6 tree exactly the files of depths 0..5 are discovered
while the depth-6 file is skipped with a depth-exceeded log; and the walk
terminates even on a self-referential tree. -/
theorem c4_depth_bound (server : Server) (base root : String) (ign : List String) :
    (∀ (durl : String) (depth max_depth : Nat), max_depth < depth →
      process_firmware_directory server base root ign durl depth max_depth =
        ([], [Ev.depthExceeded durl])) ∧
    (∀ (durl : String) (depth max_depth : Nat) (links : Page),
      depth ≤ max_depth → server durl = some links →
      process_firmware_directory server base root ign durl depth max_depth =
        links.foldr
          (fun l acc =>
            combineRes (linkRes server base root ign (max_depth - depth) durl l) acc)
          ([], []) ∧
      (∀ (l : Link) (h : String), l.href = some h →
        classifyLink l = LinkClass.directory →
        linkRes server base root ign (max_depth - depth) durl l =
          process_firmware_directory server base root ign
            (pyUrljoin durl (pyUnquote h)) (depth + 1) max_depth)) ∧
    (∀ (start v : String) (d : Nat) (links : Page) (l : Link) (h : String) (t : Task),
      Reaches server start d v → d ≤ 5 → server v = some links → l ∈ links →
      l.href = some h → classifyLink l = LinkClass.file →
      fileLinkTask ign base root h (pyUrljoin v (pyUnquote h)) = some t →
      t ∈ (process_firmware_directory server base root ign start 0 5).1) ∧
    ((process_firmware_directory c4DeepServer "http://h/" "out" [] "http://h/fw/" 0 5).1 =
      [⟨"http://h/fw/f0.bin", "out/fw/f0.bin"⟩,
       ⟨"http://h/fw/s/f1.bin", "out/fw/s/f1.bin"⟩,
       ⟨"http://h/fw/s/s/f2.bin", "out/fw/s/s/f2.bin"⟩,
       ⟨"http://h/fw/s/s/s/f3.bin", "out/fw/s/s/s/f3.bin"⟩,
       ⟨"http://h/fw/s/s/s/s/f4.bin", "out/fw/s/s/s/s/f4.bin"⟩,
       ⟨"http://h/fw/s/s/s/s/s/f5.bin", "out/fw/s/s/s/s/s/f5.bin"⟩] ∧
     (process_firmware_directory c4DeepServer "http://h/" "out" [] "http://h/fw/" 0 5).2 =
      [Ev.depthExceeded "http://h/fw/s/s/s/s/s/s/"] ∧
     (⟨"http://h/fw/s/s/s/s/s/s/f6.bin", "out/fw/s/s/s/s/s/s/f6.bin"⟩ : Task) ∉
      (process_firmware_directory c4DeepServer "http://h/" "out" [] "http://h/fw/" 0 5).1) ∧
    (process_firmware_directory c4SelfServer "http://h/" "out" [] "http://h/fw/" 0 5 =
      ([], [Ev.depthExceeded "http://h/fw/"])) := by
  refine ⟨?_, ?_, ?_, ⟨?_, ?_, ?_⟩, ?_⟩
  · intro durl depth md hlt
    unfold process_firmware_directory
    have h0 : md + 1 - depth = 0 := by omega
    rw [h0]
    rfl
  · intro durl depth md links hle hs
    have h1 : md + 1 - depth = (md - depth) + 1 := by omega
    constructor
    · unfold process_firmware_directory
      rw [h1]
      exact processFwGo_some server base root ign (md - depth) durl links hs
    · intro l h hh hcls
      have h2 : md + 1 - (depth + 1) = md - depth := by omega
      unfold process_firmware_directory
      rw [h2]
      simp [linkRes, hcls, hh]
  · intro start v d links l h t hr hd hs hl hh hcls hft
    unfold process_firmware_directory
    exact fwGo_complete server base root ign hr 6 (by omega) links l h t hs hl hh hcls hft
  · rfl
  · rfl
  · decide
  · rfl

/-- Witness for C4: the over-depth abort at a concrete call. -/
theorem c4_depth_bound_witness :
    process_firmware_directory c4SelfServer "http://h/" "out" [] "u" 7 5 =
      ([], [Ev.depthExceeded "u"]) :=
  (c4_depth_bound c4SelfServer "http://h/" "out" []).1 "u" 7 5 (by omega)


/-! ## Claim C6: the extension filter -/

/-- Dropping up to the last occurrence of `c` puts that `c` at the head. -/
theorem rlastIdx_drop (c : Char) : ∀ (l : List Char) (i : Nat),
    rlastIdx c l = some i → l.drop i = c :: l.drop (i + 1) := by
  intro l
  induction l with
  | nil => intro i h; exact absurd h (by simp [rlastIdx])
  | cons a rest ih =>
    intro i h
    simp only [rlastIdx] at h
    cases hr : rlastIdx c rest with
    | some j =>
      rw [hr] at h
      simp only [Option.some.injEq] at h
      subst h
      simpa [List.drop_succ_cons] using ih j hr
    | none =>
      rw [hr] at h
      by_cases hac : a = c
      · rw [if_pos hac] at h
        simp only [Option.some.injEq] at h
        subst h
        simp [hac]
      · rw [if_neg hac] at h
        exact absurd h (by simp)

/-- Every task the firmware walk ever enqueues, at any depth, arises from
some fetched page's file-classified link via `fileLinkTask` — so a link
whose `fileLinkTask` is `none` is never enqueued, at any depth. -/
theorem fwGo_tasks_from (server : Server) (base root : String) (ign : List String) :
    ∀ (f : Nat) (durl : String) (t : Task),
      t ∈ (processFwGo server base root ign f durl).1 →
      ∃ (d : String) (links : Page) (l : Link) (h : String),
        server d = some links ∧ l ∈ links ∧ l.href = some h ∧
        classifyLink l = LinkClass.file ∧
        fileLinkTask ign base root h (pyUrljoin d (pyUnquote h)) = some t := by
  intro f
  induction f with
  | zero => intro durl t ht; exact absurd ht (List.not_mem_nil t)
  | succ f ih =>
    intro durl t ht
    cases hs : server durl with
    | none =>
      rw [processFwGo_none server base root ign f durl hs] at ht
      exact absurd ht (List.not_mem_nil t)
    | some links =>
      rw [processFwGo_some server base root ign f durl links hs] at ht
      obtain ⟨l, hl, hlt⟩ := (mem_pageFoldr _ links t).mp ht
      cases hcls : classifyLink l with
      | ignoreNavigational => simp [linkRes, hcls] at hlt
      | directory =>
        cases hh : l.href with
        | none => simp [linkRes, hcls, hh] at hlt
        | some h =>
          simp only [linkRes, hcls, hh] at hlt
          exact ih _ t hlt
      | file =>
        cases hh : l.href with
        | none => simp [linkRes, hcls, hh] at hlt
        | some h =>
          simp only [linkRes, hcls, hh] at hlt
          cases hft : fileLinkTask ign base root h (pyUrljoin durl (pyUnquote h)) with
          | none => rw [hft] at hlt; simp at hlt
          | some t' =>
            rw [hft] at hlt
            simp only [List.mem_singleton] at hlt
            subst hlt
            exact ⟨durl, links, l, h, hs, hl, hh, hcls, hft⟩

/-- Claim C6 (amended): a file-classified link is enqueued iff the
lowercased `os.path.splitext` extension of its href, stripped of dots, is
not in the ignored set; when the final path component has a non-dot
character before its last dot that extension is exactly `'.'` followed by
the substring after the last dot (the spec's reading); `firmware.md5`
with ignored set `{md5}` is never enqueued; and every enqueued task at
every depth passes this filter.  (The unamended after-the-last-dot rule
is refuted by `c6_counterexample` on the name `".md5"`.) -/
theorem c6_extension_filter (server : Server) (base root : String) :
    (∀ (ign : List String) (h full : String),
      (fileLinkTask ign base root h full).isSome = true ↔
        ign.contains
          (pyStripChar '.' (⟨pySplitextExt (pyLower h).data⟩ : String)) = false) ∧
    (∀ (s : String) (di : Nat), rlastIdx '.' s.data = some di →
      ∀ (si : Nat),
        si = (match rlastIdx '/' s.data with | none => 0 | some j => j + 1) →
        si ≤ di →
        ((s.data.drop si).take (di - si)).any (fun c => c ≠ '.') = true →
        pySplitextExt s.data = '.' :: (specExtAfterLastDot s).data) ∧
    (∀ (b2 r2 full : String),
      fileLinkTask (normalizeExts ["md5"]) b2 r2 "firmware.md5" full = none) ∧
    (∀ (ign : List String) (f : Nat) (durl : String) (t : Task),
      t ∈ (processFwGo server base root ign f durl).1 →
      ∃ (d : String) (links : Page) (l : Link) (h : String),
        server d = some links ∧ l ∈ links ∧ l.href = some h ∧
        classifyLink l = LinkClass.file ∧
        fileLinkTask ign base root h (pyUrljoin d (pyUnquote h)) = some t) := by
  refine ⟨?_, ?_, ?_, ?_⟩
  · intro ign h full
    unfold fileLinkTask should_download_file
    split_ifs with hsd
    · simp only [Option.isSome_some, true_iff]
      simpa using hsd
    · simp only [Option.isSome_none, Bool.false_eq_true, false_iff]
      simpa using hsd
  · intro s di hdot si hsi hle hany
    subst hsi
    have hred : pySplitextExt s.data =
        (if (match rlastIdx '/' s.data with | none => 0 | some j => j + 1) ≤ di ∧
            ((s.data.drop
                (match rlastIdx '/' s.data with | none => 0 | some j => j + 1)).take
              (di - (match rlastIdx '/' s.data with | none => 0 | some j => j + 1))).any
              (fun c => c ≠ '.') = true
          then s.data.drop di else []) := by
      unfold pySplitextExt
      rw [hdot]
    rw [hred, if_pos ⟨hle, hany⟩]
    unfold specExtAfterLastDot
    rw [hdot]
    exact rlastIdx_drop '.' s.data di hdot
  · intro b2 r2 full
    unfold fileLinkTask
    rw [if_neg ?hn]
    case hn =>
      intro hcon
      have : should_download_file (normalizeExts ["md5"]) "firmware.md5" = false := by decide
      rw [this] at hcon
      exact Bool.noConfusion hcon
  · exact fun ign f durl t ht => fwGo_tasks_from server base root ign f durl t ht

/-- A firmware page holding a single link named `.md5`. -/
def c6CexServer : Server := fun u =>
  if u = "http://h/fw/" then some [⟨some ".md5", []⟩] else none

/-- Counterexample to the unamended Claim C6: the href `".md5"` has
lowercased substring `"md5"` after its last dot, which is in the ignored
set, yet the walk does enqueue it (Python `splitext` treats the leading
dot of a hidden file as part of the name, yielding an empty extension). -/
theorem c6_counterexample :
    (process_firmware_directory c6CexServer "http://h/" "out" ["md5"] "http://h/fw/" 0 5).1 =
      [⟨"http://h/fw/.md5", "out/fw/.md5"⟩] ∧
    specExtAfterLastDot (pyLower ".md5") = "md5" ∧
    ("md5" ∈ (["md5"] : List String)) := by
  refine ⟨rfl, rfl, ?_⟩
  decide

/-- Witness for C6 at concrete names. -/
theorem c6_extension_filter_witness :
    fileLinkTask (normalizeExts ["md5"]) "http://h/" "out" "firmware.md5"
        "http://h/fw/firmware.md5" = none ∧
    pySplitextExt ("sub/firmware.v2.bin" : String).data =
      '.' :: (specExtAfterLastDot "sub/firmware.v2.bin").data :=
  ⟨(c6_extension_filter c6CexServer "http://h/" "out").2.2.1 "http://h/" "out" "http://h/fw/firmware.md5",
   (c6_extension_filter c6CexServer "http://h/" "out").2.1 "sub/firmware.v2.bin" 15 rfl 4 rfl
     (by omega) (by decide)⟩


/-! ## Claim C7: firmware-directory recognition -/

/-- Lowercasing never produces the capital letter `F`, so the literal
`'Firmware/'` inside the membership test on line 130 is dead. -/
theorem toLower_ne_F (c : Char) : Char.toLower c ≠ 'F' := by
  intro h
  unfold Char.toLower at h
  simp only [] at h
  by_cases hb : c.toNat ≥ 65 ∧ c.toNat ≤ 90
  case pos =>
    rw [if_pos hb] at h
    have hv : (c.toNat + 32).isValidChar := Or.inl (by omega)
    rw [Char.ofNat, dif_pos hv] at h
    have hn := congrArg (fun ch : Char => ch.val.toBitVec.toNat) h
    simp only [Char.ofNatAux, BitVec.toNat_ofNatLt] at hn
    have h70 : ('F' : Char).val.toBitVec.toNat = 70 := rfl
    rw [h70] at hn
    omega
  case neg =>
    rw [if_neg hb] at h
    subst h
    exact hb ⟨by decide, by decide⟩

/-- No href lowercases to `"Firmware/"`. -/
theorem pyLower_ne_FirmwareCap (h : String) : pyLower h ≠ "Firmware/" := by
  intro he
  have hd := congrArg String.data he
  simp only [pyLower] at hd
  cases hh : h.data with
  | nil =>
    rw [hh] at hd
    exact absurd hd (by decide)
  | cons a rest =>
    rw [hh] at hd
    simp only [List.map_cons] at hd
    injection hd with h1 h2
    exact toLower_ne_F a h1

/-- Membership in the firmware-directory component of a page fold. -/
theorem mem_foldW_fw (F : Link → WalkRes) (links : List Link) (u : String) :
    (u ∈ (links.foldr (fun l acc => combineW (F l) acc) ⟨[], [], []⟩).fwdirs ↔
      ∃ l ∈ links, u ∈ (F l).fwdirs) := by
  induction links with
  | nil => simp
  | cons l rest ih =>
    constructor
    · intro hx
      rcases List.mem_append.mp hx with hx1 | hx2
      · exact ⟨l, List.mem_cons_self l rest, hx1⟩
      · obtain ⟨a, ha, hxa⟩ := ih.mp hx2
        exact ⟨a, List.mem_cons_of_mem l ha, hxa⟩
    · rintro ⟨a, ha, hxa⟩
      rcases List.mem_cons.mp ha with rfl | ha'
      · exact List.mem_append.mpr (Or.inl hxa)
      · exact List.mem_append.mpr (Or.inr (ih.mpr ⟨a, ha', hxa⟩))

/-- Membership in the task component of a page fold. -/
theorem mem_foldW_tasks (F : Link → WalkRes) (links : List Link) (t : Task) :
    (t ∈ (links.foldr (fun l acc => combineW (F l) acc) ⟨[], [], []⟩).tasks ↔
      ∃ l ∈ links, t ∈ (F l).tasks) := by
  induction links with
  | nil => simp
  | cons l rest ih =>
    constructor
    · intro hx
      rcases List.mem_append.mp hx with hx1 | hx2
      · exact ⟨l, List.mem_cons_self l rest, hx1⟩
      · obtain ⟨a, ha, hxa⟩ := ih.mp hx2
        exact ⟨a, List.mem_cons_of_mem l ha, hxa⟩
    · rintro ⟨a, ha, hxa⟩
      rcases List.mem_cons.mp ha with rfl | ha'
      · exact List.mem_append.mpr (Or.inl hxa)
      · exact List.mem_append.mpr (Or.inr (ih.mpr ⟨a, ha', hxa⟩))

/-- An href that lowercases to `firmware/` is never one of the
navigational hrefs. -/
theorem firmware_href_not_nav (h : String) (hlow : pyLower h = "firmware/") :
    ¬ (h = "" ∨ h ∈ navHrefs) := by
  rintro (rfl | hmem)
  · exact absurd hlow (by decide)
  · simp only [navHrefs, List.mem_cons, List.not_mem_nil, or_false] at hmem
    rcases hmem with rfl | rfl | rfl | rfl | rfl | rfl <;> exact absurd hlow (by decide)

/-- Characterisation of when a submodel-page link records a firmware
directory: exactly when its href lowercases to `firmware/`. -/
theorem subLinkRes_fw (server : Server) (base root : String)
    (ign : List String) (surl : String) (l : Link) (u : String) :
    (u ∈ (subLinkRes server base root ign surl l).fwdirs ↔
      ∃ h, l.href = some h ∧ pyLower h = "firmware/" ∧
        u = pyUrljoin surl (pyUnquote h)) := by
  cases hh : l.href with
  | none => simp [subLinkRes, hh]
  | some h =>
    simp only [subLinkRes, hh]
    by_cases hnav : h = "" ∨ h ∈ navHrefs
    · rw [if_pos hnav]
      constructor
      · intro hx; exact absurd hx (List.not_mem_nil u)
      · rintro ⟨h', hh', hlow, _⟩
        injection hh' with he
        subst he
        exact (firmware_href_not_nav _ hlow hnav).elim
    · rw [if_neg hnav]
      by_cases hfw : pyLower h ∈ (["firmware/", "Firmware/"] : List String)
      · rw [if_pos hfw]
        have hone : pyLower h = "firmware/" := by
          simp only [List.mem_cons, List.not_mem_nil, or_false] at hfw
          rcases hfw with h1 | h2
          · exact h1
          · exact absurd h2 (pyLower_ne_FirmwareCap h)
        constructor
        · intro hx
          rcases List.mem_singleton.mp hx with rfl
          exact ⟨h, rfl, hone, rfl⟩
        · rintro ⟨h', hh', hlow, hu⟩
          injection hh' with he
          subst he
          rw [hu]
          exact List.mem_singleton.mpr rfl
      · rw [if_neg hfw]
        constructor
        · intro hx; exact absurd hx (List.not_mem_nil u)
        · rintro ⟨h', hh', hlow, _⟩
          injection hh' with he
          subst he
          exact (hfw (by rw [hlow]; exact List.mem_cons_self _ _)).elim

/-- Claim C7: a submodel link is recorded as a firmware directory exactly
when its href compares case-insensitively equal to `firmware/` (so every
casing variant matches and nothing else is ever recorded), and for each
match the firmware walk of the resolved URL starts at depth 0 and its
tasks all flow into the submodel's result. -/
theorem c7_firmware_recognition (server : Server) (base root : String)
    (ign : List String) (surl : String) (links : Page)
    (hs : server surl = some links) :
    (∀ u, u ∈ (process_submodel_directory server base root ign surl).fwdirs ↔
      ∃ l ∈ links, ∃ h, l.href = some h ∧ pyLower h = "firmware/" ∧
        u = pyUrljoin surl (pyUnquote h)) ∧
    (∀ l ∈ links, ∀ h, l.href = some h → pyLower h = "firmware/" →
      ∀ t ∈ (process_firmware_directory server base root ign
          (pyUrljoin surl (pyUnquote h)) 0 5).1,
        t ∈ (process_submodel_directory server base root ign surl).tasks) := by
  constructor
  · intro u
    unfold process_submodel_directory
    rw [hs]
    rw [mem_foldW_fw]
    constructor
    · rintro ⟨l, hl, hu⟩
      exact ⟨l, hl, (subLinkRes_fw server base root ign surl l u).mp hu⟩
    · rintro ⟨l, hl, hex⟩
      exact ⟨l, hl, (subLinkRes_fw server base root ign surl l u).mpr hex⟩
  · intro l hl h hh hlow t ht
    unfold process_submodel_directory
    rw [hs]
    refine (mem_foldW_tasks _ links t).mpr ⟨l, hl, ?_⟩
    have : subLinkRes server base root ign surl l =
        ⟨[pyUrljoin surl (pyUnquote h)],
         (process_firmware_directory server base root ign
           (pyUrljoin surl (pyUnquote h)) 0 5).1,
         (process_firmware_directory server base root ign
           (pyUrljoin surl (pyUnquote h)) 0 5).2⟩ := by
      simp only [subLinkRes, hh]
      rw [if_neg (firmware_href_not_nav h hlow)]
      rw [if_pos (by rw [hlow]; exact List.mem_cons_self _ _)]
    rw [this]
    exact ht

/-- A submodel page with an upper-cased firmware link and a non-firmware
link. -/
def c7Server : Server := fun u =>
  if u = "http://h/m/" then some [⟨some "FIRMWARE/", []⟩, ⟨some "docs/", []⟩]
  else none

/-- Witness for C7 at a concrete page with href `FIRMWARE/`. -/
theorem c7_firmware_recognition_witness :
    ("http://h/m/FIRMWARE/" ∈
      (process_submodel_directory c7Server "http://h/" "out" [] "http://h/m/").fwdirs ↔
      ∃ l ∈ [(⟨some "FIRMWARE/", []⟩ : Link), ⟨some "docs/", []⟩], ∃ h,
        l.href = some h ∧ pyLower h = "firmware/" ∧
        "http://h/m/FIRMWARE/" = pyUrljoin "http://h/m/" (pyUnquote h)) :=
  (c7_firmware_recognition c7Server "http://h/" "out" [] "http://h/m/"
    [⟨some "FIRMWARE/", []⟩, ⟨some "docs/", []⟩] rfl).1 "http://h/m/FIRMWARE/"


/-! ## Claim C9: fetch-failure isolation -/

/-- A model tree with two sibling submodels, the first of which fails to
fetch while the second holds a firmware directory with one file. -/
def c9Server : Server := fun u =>
  if u = "http://h/DIR/" then some [⟨some "m1/", []⟩, ⟨some "m2/", []⟩]
  else if u = "http://h/DIR/m2/" then some [⟨some "Firmware/", []⟩]
  else if u = "http://h/DIR/m2/Firmware/" then some [⟨some "fw.bin", []⟩]
  else none

/-- Claim C9: a failed page fetch at any traversal level only abandons the
branch rooted at that URL — the walk returns normally with a logged fetch
failure and nothing discovered there; in the concrete two-sibling tree
the failing sibling leaves the other sibling's firmware directory, task
and the whole-run summary intact. -/
theorem c9_fetch_failure_isolation (server : Server) (base root : String) (ign : List String) :
    (∀ murl, server murl = none →
      process_model_directory server base root ign murl =
        ⟨[], [], [Ev.fetchFail murl]⟩) ∧
    (∀ surl, server surl = none →
      process_submodel_directory server base root ign surl =
        ⟨[], [], [Ev.fetchFail surl]⟩) ∧
    (∀ (durl : String) (depth md : Nat), depth ≤ md → server durl = none →
      process_firmware_directory server base root ign durl depth md =
        ([], [Ev.fetchFail durl])) ∧
    (process_model_directory c9Server "http://h/" "out" [] "http://h/DIR/" =
      ⟨["http://h/DIR/m2/Firmware/"],
       [⟨"http://h/DIR/m2/Firmware/fw.bin", "out/DIR/m2/Firmware/fw.bin"⟩],
       [Ev.fetchFail "http://h/DIR/m1/"]⟩) ∧
    ((runScraper c9Server (fun _ => some [0]) (fun _ => ExtractRes.corrupt)
        "http://h/" "out" ["md5"] ["DIR"] emptyFS).fwdirs =
      ["http://h/DIR/m2/Firmware/"] ∧
     (runScraper c9Server (fun _ => some [0]) (fun _ => ExtractRes.corrupt)
        "http://h/" "out" ["md5"] ["DIR"] emptyFS).count = 1) := by
  refine ⟨?_, ?_, ?_, ?_, ?_, ?_⟩
  · intro murl hs
    simp [process_model_directory, hs]
  · intro surl hs
    simp [process_submodel_directory, hs]
  · intro durl depth md hle hs
    unfold process_firmware_directory
    have h1 : md + 1 - depth = (md - depth) + 1 := by omega
    rw [h1]
    exact processFwGo_none server base root ign (md - depth) durl hs
  · rfl
  · rfl
  · rfl

/-- Witness for C9: a failing fetch inside the firmware walk at depth 2. -/
theorem c9_fetch_failure_isolation_witness :
    process_firmware_directory c9Server "http://h/" "out" [] "http://h/none/" 2 5 =
      ([], [Ev.fetchFail "http://h/none/"]) :=
  (c9_fetch_failure_isolation c9Server "http://h/" "out" []).2.2.1 "http://h/none/" 2 5 (by omega) rfl

end Scraper
